/-
  Verification of the Dynkin-system counter (src/dynkin.c).

  The C program counts Dynkin (lambda) systems over a ground set of n
  elements, n = 0 .. MAX_N.  Subsets of the ground set are encoded as
  integers in [0, 2^n); the full set is omega = 2^n - 1.  A C `Bitset`
  over subset indices is embedded as a `Finset Nat` (bit i set <-> i in
  the finset).  `extend_closure` is the work-queue closure propagation,
  `innerFuel`/`inner` the serial backtracking enumerator (the C for-loop
  with its running count is written as structural recursion on a fuel
  bounded by the loop range; fuel (omega+1)/2 always dominates the
  measure limit - m, see `innerFuel_congr`), and `driverCount` the
  drivers per-n total via the precomputed `rootExcluded` prefixes.

  One deliberate modelling note: the C inner scan walks the closure
  bitset word by word through a local 64-bit copy; the embedding walks
  subset indices 0 .. MAX_SUBSETS-1 in the same increasing order against
  the live closure.  Every pair of closure members is still visited via
  the queue exactly as in C, and the computed least fixed point and the
  success/contradiction boolean agree.  The C work queue has capacity
  MAX_SUBSETS; the embedding gives the loop MAX_SUBSETS fuel (one unit
  per dequeue), the exact number of dequeues the C queue can ever serve.
-/
import Mathlib

namespace DynkinC

/-- MAX_N from dynkin.c. -/
def MAX_N : ℕ := 7

/-- MAX_SUBSETS from dynkin.c: the capacity of a subset bitset and of the
work queue. -/
def MAX_SUBSETS : ℕ := 2 ^ MAX_N

/-- A C `Bitset` over subset indices, embedded as the set of indices whose
bit is set. -/
abbrev Bitset := Finset ℕ

/-- One guarded insertion into the closure, mirroring the
`if (!bs_get(closure, z)) { if (bs_get(excluded, z)) return 0;
bs_set(closure, z); queue[qe++] = z; }` pattern of `extend_closure`:
skip if already present, abort on an excluded hit, otherwise set the bit
and enqueue. -/
def tryAdd (excluded : Bitset) (st : Bitset × List ℕ) (z : ℕ) :
    Option (Bitset × List ℕ) :=
  if z ∈ st.1 then some st
  else if z ∈ excluded then none
  else some (insert z st.1, st.2 ++ [z])

/-- One step of the inner scan of `extend_closure` for dequeued `x` at
scan position `y`: if `y` is in the closure and disjoint from `x`, try to
add the union `x ||| y`. -/
def scanStep (x : ℕ) (excluded : Bitset) (st : Bitset × List ℕ) (y : ℕ) :
    Option (Bitset × List ℕ) :=
  if y ∈ st.1 ∧ x &&& y = 0 then tryAdd excluded st (x ||| y) else some st

/-- Processing of one dequeued element `x` in `extend_closure`: first the
complement rule for `omega ^^^ x`, then the scan over all subset indices
pairing `x` with the closure members disjoint from it. -/
def processOne (omega x : ℕ) (excluded : Bitset) (st : Bitset × List ℕ) :
    Option (Bitset × List ℕ) :=
  (tryAdd excluded st (omega ^^^ x)).bind fun st1 =>
    (List.range MAX_SUBSETS).foldlM (scanStep x excluded) st1

/-- The `while (qs < qe)` loop of `extend_closure`.  The fuel counts the
dequeues still available; the C queue array can serve at most
MAX_SUBSETS dequeues before overflowing, which is the fuel used at the
top entry (`extend_closure`). -/
def closureLoop (omega : ℕ) (excluded : Bitset) :
    ℕ → Bitset → List ℕ → Option Bitset
  | _, clos, [] => some clos
  | 0, _, _ :: _ => none
  | fuel + 1, clos, x :: rest =>
      match processOne omega x excluded (clos, rest) with
      | none => none
      | some st2 => closureLoop omega excluded fuel st2.1 st2.2

/-- Function `extend_closure` from dynkin.c: copy `included`, set the `extension`
bit, seed the queue with `extension`, and run the propagation loop.
`some closure` models the C return value 1 (with the out-parameter
closure), `none` models 0 (contradiction). -/
def extend_closure (omega : ℕ) (included : Bitset) (extension : ℕ)
    (excluded : Bitset) : Option Bitset :=
  closureLoop omega excluded MAX_SUBSETS (insert extension included) [extension]

/-- The serial enumerator `inner` from dynkin.c, with the
`for (m = lb; m < limit; ++m)` loop and its running count written as
recursion on `m` and an explicit fuel: `innerFuel omega fuel m inc exc`
is the value of `inner(omega, m, inc, exc)` provided
`(omega+1)/2 <= m + fuel`.  The `count = 1` initialisation appears as the
base case, the skip branch keeps the state, the include branch recurses
into the successful closure, and the loop then continues with `m` and
`omega ^^^ m` committed to `excluded`. -/
def innerFuel (omega : ℕ) : ℕ → ℕ → Bitset → Bitset → ℕ
  | 0, _, _, _ => 1
  | fuel + 1, m, inc, exc =>
    if m < (omega + 1) / 2 then
      if m ∈ inc ∨ m ∈ exc then innerFuel omega fuel (m + 1) inc exc
      else
        (match extend_closure omega inc m exc with
          | some clos => innerFuel omega fuel (m + 1) clos exc
          | none => 0)
        + innerFuel omega fuel (m + 1) inc (insert m (insert (omega ^^^ m) exc))
    else 1

/-- Function `inner(omega, m, included, excluded)` from dynkin.c; the fuel
`(omega+1)/2` dominates the loop measure `(omega+1)/2 - m` for every
`m`. -/
def inner (omega m : ℕ) (included excluded : Bitset) : ℕ :=
  innerFuel omega ((omega + 1) / 2) m included excluded

/-- The value `omega` as computed by `main`: `(n > 0) ? ((1u << n) - 1) : 0`. -/
def omegaOf (n : ℕ) : ℕ := if 0 < n then 2 ^ n - 1 else 0

/-- The base family of `main`: bits 0 (empty set) and `omega` (full set). -/
def baseIncluded (omega : ℕ) : Bitset := insert 0 {omega}

/-- The serial prefix precomputation `root_excluded` of `main`:
`rootExcluded omega m` is the excluded bitset accumulated by the
unconditional exclude-commits of top-level iterations 1 .. m. -/
def rootExcluded (omega : ℕ) : ℕ → Bitset
  | 0 => ∅
  | m + 1 => insert (m + 1) (insert (omega ^^^ (m + 1)) (rootExcluded omega m))

/-- The contribution of top-level worker `m` in the parallel loop of
`main`: skip if `m` is already decided in the base state, otherwise
attempt the closure extension against `root_excluded[m-1]` and on
success recurse with the branch excluded set `root_excluded[m-1] ∪
{m, omega ^^^ m}`. -/
def workerTerm (omega m : ℕ) : ℕ :=
  if m ∈ baseIncluded omega ∨ m ∈ rootExcluded omega (m - 1) then 0
  else
    match extend_closure omega (baseIncluded omega) m (rootExcluded omega (m - 1)) with
    | some clos =>
        inner omega (m + 1) clos
          (insert m (insert (omega ^^^ m) (rootExcluded omega (m - 1))))
    | none => 0

/-- The count printed by `main` for ground-set size `n`: 1 when the
midpoint limit is 0 (only the trivial system), otherwise the parallel
top-level sum plus 1 for the "no more subsets" choice. -/
def driverCount (n : ℕ) : ℕ :=
  if (omegaOf n + 1) / 2 = 0 then 1
  else (∑ m ∈ Finset.Ico 1 ((omegaOf n + 1) / 2), workerTerm (omegaOf n) m) + 1

/-- The `printf("%u %zu\n", n, total)` line of `main`, as the printed
pair of numbers. -/
def outputLine (n : ℕ) : ℕ × ℕ := (n, driverCount n)

/-- Dynkin closure of a set of subset indices: closed under complement
(`omega ^^^ s`) and under union of disjoint members. -/
def DynkinClosed (omega : ℕ) (D : Set ℕ) : Prop :=
  (∀ s ∈ D, omega ^^^ s ∈ D) ∧
    ∀ x ∈ D, ∀ y ∈ D, x &&& y = 0 → x ||| y ∈ D

/-- Dynkin closure for a bitset (decidable version of `DynkinClosed`). -/
def DynkinClosedF (omega : ℕ) (D : Bitset) : Prop :=
  (∀ s ∈ D, omega ^^^ s ∈ D) ∧
    ∀ x ∈ D, ∀ y ∈ D, x &&& y = 0 → x ||| y ∈ D

instance (omega : ℕ) (D : Bitset) : Decidable (DynkinClosedF omega D) := by
  unfold DynkinClosedF; infer_instance

/-- How a closure/queue state can evolve inside one `processOne` call:
the closure only grows, the queue is only appended to, every new closure
member is on the queue, every addition passed the excluded check, and
every new queue member is in the closure. -/
def REvol (excl : Bitset) (st st' : Bitset × List ℕ) : Prop :=
  st.1 ⊆ st'.1 ∧
  (∀ a ∈ st.2, a ∈ st'.2) ∧
  (∀ a ∈ st'.1, a ∈ st.1 ∨ a ∈ st'.2) ∧
  (∀ a ∈ st'.1, a ∈ st.1 ∨ a ∉ excl) ∧
  (∀ a ∈ st'.2, a ∈ st.2 ∨ a ∈ st'.1)

/-- All closure members and queue entries are below MAX_SUBSETS. -/
def BoundedSt (st : Bitset × List ℕ) : Prop :=
  (∀ a ∈ st.1, a < MAX_SUBSETS) ∧ ∀ a ∈ st.2, a < MAX_SUBSETS

/-- Invariant of the `while (qs < qe)` loop of `extend_closure`:
every closure member no longer on the queue has its complement in the
closure and has been paired with every other such member disjoint from
it. -/
def Iproc (omega : ℕ) (clos : Bitset) (q : List ℕ) : Prop :=
  ∀ a ∈ clos, a ∉ q →
    omega ^^^ a ∈ clos ∧ ∀ b ∈ clos, b ∉ q → a &&& b = 0 → a ||| b ∈ clos

/-- Search states reachable by the enumeration for a given omega.  A
state is a pair (included, excluded); the enumeration starts from the
base state and moves by the two transitions of the enumerator body: a
successful closure extension with an undecided index below the midpoint,
or the exclude-commit of such an index and its complement. -/
inductive Reach (omega : ℕ) : Bitset → Bitset → Prop where
  | base : Reach omega (baseIncluded omega) ∅
  | extend {inc exc : Bitset} {m : ℕ} {clos : Bitset} :
      Reach omega inc exc → m < (omega + 1) / 2 → m ∉ inc → m ∉ exc →
      extend_closure omega inc m exc = some clos → Reach omega clos exc
  | exclude {inc exc : Bitset} {m : ℕ} :
      Reach omega inc exc → m < (omega + 1) / 2 → m ∉ inc → m ∉ exc →
      Reach omega inc (insert m (insert (omega ^^^ m) exc))

/-- Safety invariant of the `extend_closure` work loop for a call with
included set `inc` and seed `e`: the pending queue has pairwise distinct
entries, every queued index has its closure bit set, every closure
member is a valid bitset index, and the closure contains the seed state.
The set of indices ever enqueued is `insert e (st.1 \ inc)` (the seed
plus every bit set beyond `included`), so its cardinality is the C
queue write position `qe`. -/
def QueueInv (inc : Bitset) (e : ℕ) (st : Bitset × List ℕ) : Prop :=
  st.2.Nodup ∧ (∀ a ∈ st.2, a ∈ st.1) ∧ (∀ a ∈ st.1, a < MAX_SUBSETS) ∧
    inc ⊆ st.1 ∧ e ∈ st.1

/-! Basic equations of the closure loop. -/

lemma closureLoop_nil (omega : ℕ) (excl : Bitset) (fuel : ℕ) (clos : Bitset) :
    closureLoop omega excl fuel clos [] = some clos := by
  cases fuel <;> rfl

lemma closureLoop_zero_cons (omega : ℕ) (excl : Bitset) (clos : Bitset)
    (x : ℕ) (rest : List ℕ) :
    closureLoop omega excl 0 clos (x :: rest) = none := rfl

lemma closureLoop_succ_cons (omega : ℕ) (excl : Bitset) (fuel : ℕ)
    (clos : Bitset) (x : ℕ) (rest : List ℕ) :
    closureLoop omega excl (fuel + 1) clos (x :: rest) =
      match processOne omega x excl (clos, rest) with
      | none => none
      | some st2 => closureLoop omega excl fuel st2.1 st2.2 := rfl

/-- Case analysis of a successful `tryAdd`: either the element was already
in the closure and the state is unchanged, or it was fresh, not excluded,
and was both inserted into the closure and appended to the queue. -/
lemma tryAdd_cases {excl : Bitset} {st st' : Bitset × List ℕ} {z : ℕ}
    (h : tryAdd excl st z = some st') :
    (z ∈ st.1 ∧ st' = st) ∨
      (z ∉ st.1 ∧ z ∉ excl ∧ st' = (insert z st.1, st.2 ++ [z])) := by
  unfold tryAdd at h
  split_ifs at h with h1 h2
  · exact Or.inl ⟨h1, (Option.some.inj h).symm⟩
  · exact Or.inr ⟨h1, h2, (Option.some.inj h).symm⟩

/-- Case analysis of a successful `scanStep`. -/
lemma scanStep_cases {x : ℕ} {excl : Bitset} {st st' : Bitset × List ℕ} {y : ℕ}
    (h : scanStep x excl st y = some st') :
    ((y ∈ st.1 ∧ x &&& y = 0) ∧ tryAdd excl st (x ||| y) = some st') ∨
      (¬(y ∈ st.1 ∧ x &&& y = 0) ∧ st' = st) := by
  unfold scanStep at h
  split_ifs at h with h1
  · exact Or.inl ⟨h1, h⟩
  · exact Or.inr ⟨h1, (Option.some.inj h).symm⟩

/-- A predicate preserved by each successful step of a fold is preserved
by the whole fold. -/
lemma foldlM_ind {f : Bitset × List ℕ → ℕ → Option (Bitset × List ℕ)}
    {P : Bitset × List ℕ → Prop}
    (hf : ∀ st y st', f st y = some st' → P st → P st') :
    ∀ (l : List ℕ) (st st'), List.foldlM f st l = some st' → P st → P st' := by
  intro l
  induction l with
  | nil =>
    intro st st' h hP
    rw [List.foldlM_nil] at h
    cases h
    exact hP
  | cons y l ih =>
    intro st st' h hP
    rw [List.foldlM_cons] at h
    cases hy : f st y with
    | none => rw [hy] at h; simp at h
    | some st1 =>
      rw [hy] at h
      simp only [Option.bind_eq_bind, Option.some_bind] at h
      exact ih st1 st' h (hf st y st1 hy hP)

/-- A reflexive transitive relation that holds across each successful step
of a fold holds across the whole fold. -/
lemma foldlM_rel {f : Bitset × List ℕ → ℕ → Option (Bitset × List ℕ)}
    {R : Bitset × List ℕ → Bitset × List ℕ → Prop}
    (hrefl : ∀ st, R st st)
    (htrans : ∀ a b c, R a b → R b c → R a c)
    (hf : ∀ st y st', f st y = some st' → R st st') :
    ∀ (l : List ℕ) (st st'), List.foldlM f st l = some st' → R st st' := by
  intro l
  induction l with
  | nil =>
    intro st st' h
    rw [List.foldlM_nil] at h
    cases h
    exact hrefl _
  | cons y l ih =>
    intro st st' h
    rw [List.foldlM_cons] at h
    cases hy : f st y with
    | none => rw [hy] at h; simp at h
    | some st1 =>
      rw [hy] at h
      simp only [Option.bind_eq_bind, Option.some_bind] at h
      exact htrans _ _ _ (hf st y st1 hy) (ih st1 st' h)

lemma REvol_refl (excl : Bitset) (st : Bitset × List ℕ) : REvol excl st st :=
  ⟨Finset.Subset.refl _, fun _ h => h, fun _ h => Or.inl h, fun _ h => Or.inl h,
    fun _ h => Or.inl h⟩

lemma REvol_trans (excl : Bitset) (a b c : Bitset × List ℕ)
    (hab : REvol excl a b) (hbc : REvol excl b c) : REvol excl a c := by
  obtain ⟨s1, q1, n1, e1, c1⟩ := hab
  obtain ⟨s2, q2, n2, e2, c2⟩ := hbc
  refine ⟨s1.trans s2, fun x hx => q2 x (q1 x hx), ?_, ?_, ?_⟩
  · intro x hx
    rcases n2 x hx with h | h
    · rcases n1 x h with h' | h'
      · exact Or.inl h'
      · exact Or.inr (q2 x h')
    · exact Or.inr h
  · intro x hx
    rcases e2 x hx with h | h
    · exact e1 x h
    · exact Or.inr h
  · intro x hx
    rcases c2 x hx with h | h
    · rcases c1 x h with h' | h'
      · exact Or.inl h'
      · exact Or.inr (s2 h')
    · exact Or.inr h

lemma tryAdd_REvol {excl : Bitset} {st st' : Bitset × List ℕ} {z : ℕ}
    (h : tryAdd excl st z = some st') : REvol excl st st' := by
  rcases tryAdd_cases h with ⟨_, rfl⟩ | ⟨hz1, hz2, rfl⟩
  · exact REvol_refl _ _
  · refine ⟨Finset.subset_insert _ _, ?_, ?_, ?_, ?_⟩
    · intro a ha; simp [ha]
    · intro a ha
      rcases Finset.mem_insert.mp ha with rfl | ha'
      · exact Or.inr (by simp)
      · exact Or.inl ha'
    · intro a ha
      rcases Finset.mem_insert.mp ha with rfl | ha'
      · exact Or.inr hz2
      · exact Or.inl ha'
    · intro a ha
      rcases List.mem_append.mp ha with ha' | ha'
      · exact Or.inl ha'
      · simp only [List.mem_singleton] at ha'
        subst ha'
        exact Or.inr (Finset.mem_insert_self _ _)

lemma scanStep_REvol {x : ℕ} {excl : Bitset} {st st' : Bitset × List ℕ} {y : ℕ}
    (h : scanStep x excl st y = some st') : REvol excl st st' := by
  rcases scanStep_cases h with ⟨_, hadd⟩ | ⟨_, rfl⟩
  · exact tryAdd_REvol hadd
  · exact REvol_refl _ _

/-- Evolution across one whole `processOne` call, from the state with the
dequeued element already popped. -/
lemma processOne_REvol {omega x : ℕ} {excl : Bitset} {st st' : Bitset × List ℕ}
    (h : processOne omega x excl st = some st') : REvol excl st st' := by
  unfold processOne at h
  cases hc : tryAdd excl st (omega ^^^ x) with
  | none => rw [hc] at h; simp at h
  | some st1 =>
    rw [hc] at h
    simp only [Option.some_bind] at h
    exact REvol_trans excl _ _ _ (tryAdd_REvol hc)
      (foldlM_rel (REvol_refl excl) (REvol_trans excl)
        (fun st y st' hs => scanStep_REvol hs) _ st1 st' h)

/-- The complement of the dequeued element is in the closure after
`processOne`. -/
lemma processOne_comp_mem {omega x : ℕ} {excl : Bitset} {st st' : Bitset × List ℕ}
    (h : processOne omega x excl st = some st') : omega ^^^ x ∈ st'.1 := by
  unfold processOne at h
  cases hc : tryAdd excl st (omega ^^^ x) with
  | none => rw [hc] at h; simp at h
  | some st1 =>
    rw [hc] at h
    simp only [Option.some_bind] at h
    have h1 : omega ^^^ x ∈ st1.1 := by
      rcases tryAdd_cases hc with ⟨hz, rfl⟩ | ⟨_, _, rfl⟩
      · exact hz
      · exact Finset.mem_insert_self _ _
    exact (foldlM_rel (REvol_refl excl) (REvol_trans excl)
      (fun st y st' hs => scanStep_REvol hs) _ st1 st' h).1 h1

/-! Bounds: with all inputs below MAX_SUBSETS, every index the closure
loop handles stays below MAX_SUBSETS (in C: all bitset and queue accesses
are in bounds). -/

lemma xor_lt_MS {a b : ℕ} (ha : a < MAX_SUBSETS) (hb : b < MAX_SUBSETS) :
    a ^^^ b < MAX_SUBSETS := by
  have ha' : a < 2 ^ 7 := ha
  have hb' : b < 2 ^ 7 := hb
  exact Nat.xor_lt_two_pow ha' hb'

lemma or_lt_MS {a b : ℕ} (ha : a < MAX_SUBSETS) (hb : b < MAX_SUBSETS) :
    a ||| b < MAX_SUBSETS := by
  have ha' : a < 2 ^ 7 := ha
  have hb' : b < 2 ^ 7 := hb
  exact Nat.or_lt_two_pow ha' hb'

lemma tryAdd_bounded {excl : Bitset} {st st' : Bitset × List ℕ} {z : ℕ}
    (hz : z < MAX_SUBSETS) (h : tryAdd excl st z = some st')
    (hb : BoundedSt st) : BoundedSt st' := by
  rcases tryAdd_cases h with ⟨_, rfl⟩ | ⟨_, _, rfl⟩
  · exact hb
  · constructor
    · intro a ha
      rcases Finset.mem_insert.mp ha with rfl | ha'
      · exact hz
      · exact hb.1 a ha'
    · intro a ha
      rcases List.mem_append.mp ha with ha' | ha'
      · exact hb.2 a ha'
      · simp only [List.mem_singleton] at ha'
        subst ha'
        exact hz

lemma processOne_bounded {omega x : ℕ} {excl : Bitset}
    {st st' : Bitset × List ℕ}
    (homega : omega < MAX_SUBSETS) (hx : x < MAX_SUBSETS)
    (h : processOne omega x excl st = some st') (hb : BoundedSt st) :
    BoundedSt st' := by
  unfold processOne at h
  cases hc : tryAdd excl st (omega ^^^ x) with
  | none => rw [hc] at h; simp at h
  | some st1 =>
    rw [hc] at h
    simp only [Option.some_bind] at h
    have hb1 : BoundedSt st1 := tryAdd_bounded (xor_lt_MS homega hx) hc hb
    refine foldlM_ind (fun st y st' hs hP => ?_) _ st1 st' h hb1
    rcases scanStep_cases hs with ⟨⟨hyin, _⟩, hadd⟩ | ⟨_, rfl⟩
    · exact tryAdd_bounded (or_lt_MS hx (hP.1 y hyin)) hadd hP
    · exact hP

/-- Completeness of the inner scan of `processOne`: in the final state,
the dequeued element `x` has been paired with every closure member
disjoint from it.  The precondition says the pairs whose scan position is
not in the remaining list are already handled. -/
lemma scanComplete {x : ℕ} {excl : Bitset} :
    ∀ (l : List ℕ) (st st' : Bitset × List ℕ),
      List.foldlM (scanStep x excl) st l = some st' →
      (∀ b ∈ st.1, b ∉ l → x &&& b = 0 → x ||| b ∈ st.1) →
      ∀ b ∈ st'.1, x &&& b = 0 → x ||| b ∈ st'.1 := by
  intro l
  induction l with
  | nil =>
    intro st st' h hpre
    rw [List.foldlM_nil] at h
    cases h
    exact fun b hb hd => hpre b hb (List.not_mem_nil b) hd
  | cons y l ih =>
    intro st st' h hpre
    rw [List.foldlM_cons] at h
    cases hy : scanStep x excl st y with
    | none => rw [hy] at h; simp at h
    | some st1 =>
      rw [hy] at h
      simp only [Option.bind_eq_bind, Option.some_bind] at h
      refine ih st1 st' h ?_
      intro b hb hbl hdisj
      rcases scanStep_cases hy with ⟨⟨hyin, hydisj⟩, hadd⟩ | ⟨hcond, rfl⟩
      · rcases tryAdd_cases hadd with ⟨hzin, rfl⟩ | ⟨hz1, hz2, rfl⟩
        · by_cases hby : b = y
          · subst hby
            exact hzin
          · exact hpre b hb (by simp [hby, hbl]) hdisj
        · rcases Finset.mem_insert.mp hb with rfl | hb'
          · rw [← Nat.or_assoc, Nat.or_self]
            exact Finset.mem_insert_self _ _
          · by_cases hby : b = y
            · subst hby
              exact Finset.mem_insert_self _ _
            · exact Finset.mem_insert_of_mem
                (hpre b hb' (by simp [hby, hbl]) hdisj)
      · by_cases hby : b = y
        · subst hby
          exact absurd ⟨hb, hdisj⟩ hcond
        · exact hpre b hb (by simp [hby, hbl]) hdisj

lemma processOne_scan {omega x : ℕ} {excl : Bitset} {st st' : Bitset × List ℕ}
    (homega : omega < MAX_SUBSETS) (hx : x < MAX_SUBSETS) (hb : BoundedSt st)
    (h : processOne omega x excl st = some st') :
    ∀ b ∈ st'.1, x &&& b = 0 → x ||| b ∈ st'.1 := by
  unfold processOne at h
  cases hc : tryAdd excl st (omega ^^^ x) with
  | none => rw [hc] at h; simp at h
  | some st1 =>
    rw [hc] at h
    simp only [Option.some_bind] at h
    have hb1 : BoundedSt st1 := tryAdd_bounded (xor_lt_MS homega hx) hc hb
    refine scanComplete _ st1 st' h ?_
    intro b hbin hbl _
    exact absurd (List.mem_range.mpr (hb1.1 b hbin)) hbl

/-! The processed-pairs invariant of the closure loop: every closure
member no longer on the queue has its complement in the closure and has
been paired with every other such member disjoint from it. -/

lemma Iproc_nil_closed {omega : ℕ} {clos : Bitset} (hI : Iproc omega clos []) :
    DynkinClosedF omega clos :=
  ⟨fun s hs => (hI s hs (List.not_mem_nil s)).1,
    fun x hx y hy hd => (hI x hx (List.not_mem_nil x)).2 y hy (List.not_mem_nil y) hd⟩

/-- The processed-pairs invariant survives the processing of one dequeued
element. -/
lemma Iproc_step {omega x : ℕ} {excl clos : Bitset} {rest : List ℕ}
    {st2 : Bitset × List ℕ}
    (homega : omega < MAX_SUBSETS)
    (hq : ∀ a ∈ x :: rest, a ∈ clos)
    (hb : ∀ a ∈ clos, a < MAX_SUBSETS)
    (hI : Iproc omega clos (x :: rest))
    (hP : processOne omega x excl (clos, rest) = some st2) :
    Iproc omega st2.1 st2.2 := by
  have hR := processOne_REvol hP
  have hmono : clos ⊆ st2.1 := hR.1
  have hrest : ∀ a ∈ rest, a ∈ st2.2 := hR.2.1
  have hnew : ∀ a ∈ st2.1, a ∈ clos ∨ a ∈ st2.2 := hR.2.2.1
  have hx : x < MAX_SUBSETS := hb x (hq x (List.mem_cons_self x rest))
  have hbst : BoundedSt (clos, rest) :=
    ⟨hb, fun a ha => hb a (hq a (List.mem_cons_of_mem x ha))⟩
  have hscan := processOne_scan homega hx hbst hP
  intro a ha ha2
  have haclos : a ∈ clos := (hnew a ha).resolve_right ha2
  by_cases hax : a = x
  · subst hax
    refine ⟨processOne_comp_mem hP, ?_⟩
    intro b hb2 _ hdisj
    exact hscan b hb2 hdisj
  · have hanotin : a ∉ x :: rest := by
      intro hmem
      rcases List.mem_cons.mp hmem with h | h
      · exact hax h
      · exact ha2 (hrest a h)
    obtain ⟨hacomp, hapairs⟩ := hI a haclos hanotin
    refine ⟨hmono hacomp, ?_⟩
    intro b hb2 hbq hdisj
    have hbclos : b ∈ clos := (hnew b hb2).resolve_right hbq
    by_cases hbx : b = x
    · subst hbx
      have h' : b ||| a ∈ st2.1 :=
        hscan a ha (by rw [Nat.and_comm]; exact hdisj)
      rwa [Nat.or_comm] at h'
    · have hbnotin : b ∉ x :: rest := by
        intro hmem
        rcases List.mem_cons.mp hmem with h | h
        · exact hbx h
        · exact hbq (hrest b h)
      exact hmono (hapairs b hbclos hbnotin hdisj)

/-! Loop-level lemmas, by induction on the fuel. -/

lemma closureLoop_mono {omega : ℕ} {excl : Bitset} :
    ∀ (fuel : ℕ) (clos : Bitset) (q : List ℕ) (r : Bitset),
      closureLoop omega excl fuel clos q = some r → clos ⊆ r := by
  intro fuel
  induction fuel with
  | zero =>
    intro clos q r h
    cases q with
    | nil => rw [closureLoop_nil] at h; cases h; exact Finset.Subset.refl _
    | cons x rest => rw [closureLoop_zero_cons] at h; cases h
  | succ fuel ih =>
    intro clos q r h
    cases q with
    | nil => rw [closureLoop_nil] at h; cases h; exact Finset.Subset.refl _
    | cons x rest =>
      rw [closureLoop_succ_cons] at h
      cases hPo : processOne omega x excl (clos, rest) with
      | none => rw [hPo] at h; simp at h
      | some st2 =>
        rw [hPo] at h
        exact (processOne_REvol hPo).1.trans (ih st2.1 st2.2 r h)

/-- Minimality: every element the loop ever adds is forced, i.e. lies in
any Dynkin-closed set containing the entry closure. -/
lemma closureLoop_sound {omega : ℕ} {excl : Bitset} {D : Set ℕ}
    (hD : DynkinClosed omega D) :
    ∀ (fuel : ℕ) (clos : Bitset) (q : List ℕ) (r : Bitset),
      (∀ a ∈ clos, a ∈ D) → (∀ a ∈ q, a ∈ clos) →
      closureLoop omega excl fuel clos q = some r → ∀ a ∈ r, a ∈ D := by
  intro fuel
  induction fuel with
  | zero =>
    intro clos q r hin hq h
    cases q with
    | nil => rw [closureLoop_nil] at h; cases h; exact hin
    | cons x rest => rw [closureLoop_zero_cons] at h; cases h
  | succ fuel ih =>
    intro clos q r hin hq h
    cases q with
    | nil => rw [closureLoop_nil] at h; cases h; exact hin
    | cons x rest =>
      rw [closureLoop_succ_cons] at h
      cases hPo : processOne omega x excl (clos, rest) with
      | none => rw [hPo] at h; simp at h
      | some st2 =>
        rw [hPo] at h
        have hxD : x ∈ D := hin x (hq x (List.mem_cons_self x rest))
        have hin2 : ∀ a ∈ st2.1, a ∈ D := by
          have hPo' := hPo
          unfold processOne at hPo'
          cases hc : tryAdd excl (clos, rest) (omega ^^^ x) with
          | none => rw [hc] at hPo'; simp at hPo'
          | some st1 =>
            rw [hc] at hPo'
            simp only [Option.some_bind] at hPo'
            have h1 : ∀ a ∈ st1.1, a ∈ D := by
              rcases tryAdd_cases hc with ⟨_, rfl⟩ | ⟨_, _, rfl⟩
              · exact hin
              · intro a ha
                rcases Finset.mem_insert.mp ha with rfl | ha'
                · exact hD.1 x hxD
                · exact hin a ha'
            refine @foldlM_ind _ (fun st => ∀ a ∈ st.1, a ∈ D)
              (fun st y st' hs hP => ?_) _ st1 st2 hPo' h1
            rcases scanStep_cases hs with ⟨⟨hyin, hydisj⟩, hadd⟩ | ⟨_, rfl⟩
            · rcases tryAdd_cases hadd with ⟨_, rfl⟩ | ⟨_, _, rfl⟩
              · exact hP
              · intro a ha
                rcases Finset.mem_insert.mp ha with rfl | ha'
                · exact hD.2 x hxD y (hP y hyin) hydisj
                · exact hP a ha'
            · exact hP
        have hq2 : ∀ a ∈ st2.2, a ∈ st2.1 := by
          have hR := processOne_REvol hPo
          intro a ha
          rcases hR.2.2.2.2 a ha with h' | h'
          · exact hR.1 (hq a (List.mem_cons_of_mem x h'))
          · exact h'
        exact ih st2.1 st2.2 r hin2 hq2 h

/-- Every element of the final closure is either in the entry closure or
passed the excluded check. -/
lemma closureLoop_nonexcl {omega : ℕ} {excl : Bitset} :
    ∀ (fuel : ℕ) (clos : Bitset) (q : List ℕ) (r : Bitset),
      closureLoop omega excl fuel clos q = some r →
      ∀ a ∈ r, a ∈ clos ∨ a ∉ excl := by
  intro fuel
  induction fuel with
  | zero =>
    intro clos q r h
    cases q with
    | nil => rw [closureLoop_nil] at h; cases h; exact fun a ha => Or.inl ha
    | cons x rest => rw [closureLoop_zero_cons] at h; cases h
  | succ fuel ih =>
    intro clos q r h
    cases q with
    | nil => rw [closureLoop_nil] at h; cases h; exact fun a ha => Or.inl ha
    | cons x rest =>
      rw [closureLoop_succ_cons] at h
      cases hPo : processOne omega x excl (clos, rest) with
      | none => rw [hPo] at h; simp at h
      | some st2 =>
        rw [hPo] at h
        intro a ha
        rcases ih st2.1 st2.2 r h a ha with h' | h'
        · exact (processOne_REvol hPo).2.2.2.1 a h'
        · exact Or.inr h'

lemma closureLoop_bounded {omega : ℕ} {excl : Bitset}
    (homega : omega < MAX_SUBSETS) :
    ∀ (fuel : ℕ) (clos : Bitset) (q : List ℕ) (r : Bitset),
      (∀ a ∈ clos, a < MAX_SUBSETS) → (∀ a ∈ q, a ∈ clos) →
      closureLoop omega excl fuel clos q = some r →
      ∀ a ∈ r, a < MAX_SUBSETS := by
  intro fuel
  induction fuel with
  | zero =>
    intro clos q r hb hq h
    cases q with
    | nil => rw [closureLoop_nil] at h; cases h; exact hb
    | cons x rest => rw [closureLoop_zero_cons] at h; cases h
  | succ fuel ih =>
    intro clos q r hb hq h
    cases q with
    | nil => rw [closureLoop_nil] at h; cases h; exact hb
    | cons x rest =>
      rw [closureLoop_succ_cons] at h
      cases hPo : processOne omega x excl (clos, rest) with
      | none => rw [hPo] at h; simp at h
      | some st2 =>
        rw [hPo] at h
        have hB : BoundedSt st2 :=
          processOne_bounded homega (hb x (hq x (List.mem_cons_self x rest)))
            hPo ⟨hb, fun a ha => hb a (hq a (List.mem_cons_of_mem x ha))⟩
        have hq2 : ∀ a ∈ st2.2, a ∈ st2.1 := by
          have hR := processOne_REvol hPo
          intro a ha
          rcases hR.2.2.2.2 a ha with h' | h'
          · exact hR.1 (hq a (List.mem_cons_of_mem x h'))
          · exact h'
        exact ih st2.1 st2.2 r hB.1 hq2 h

lemma closureLoop_closed {omega : ℕ} {excl : Bitset}
    (homega : omega < MAX_SUBSETS) :
    ∀ (fuel : ℕ) (clos : Bitset) (q : List ℕ) (r : Bitset),
      (∀ a ∈ q, a ∈ clos) → (∀ a ∈ clos, a < MAX_SUBSETS) →
      Iproc omega clos q →
      closureLoop omega excl fuel clos q = some r →
      DynkinClosedF omega r := by
  intro fuel
  induction fuel with
  | zero =>
    intro clos q r hq hb hI h
    cases q with
    | nil => rw [closureLoop_nil] at h; cases h; exact Iproc_nil_closed hI
    | cons x rest => rw [closureLoop_zero_cons] at h; cases h
  | succ fuel ih =>
    intro clos q r hq hb hI h
    cases q with
    | nil => rw [closureLoop_nil] at h; cases h; exact Iproc_nil_closed hI
    | cons x rest =>
      rw [closureLoop_succ_cons] at h
      cases hPo : processOne omega x excl (clos, rest) with
      | none => rw [hPo] at h; simp at h
      | some st2 =>
        rw [hPo] at h
        have hR := processOne_REvol hPo
        have hq2 : ∀ a ∈ st2.2, a ∈ st2.1 := by
          intro a ha
          rcases hR.2.2.2.2 a ha with h' | h'
          · exact hR.1 (hq a (List.mem_cons_of_mem x h'))
          · exact h'
        have hb2 : ∀ a ∈ st2.1, a < MAX_SUBSETS :=
          (processOne_bounded homega (hb x (hq x (List.mem_cons_self x rest)))
            hPo ⟨hb, fun a ha => hb a (hq a (List.mem_cons_of_mem x ha))⟩).1
        exact ih st2.1 st2.2 r hq2 hb2 (Iproc_step homega hq hb hI hPo) h

/-! Facts about `extend_closure` itself. -/

lemma extend_seed_subset {omega e : ℕ} {inc exc clos : Bitset}
    (h : extend_closure omega inc e exc = some clos) : insert e inc ⊆ clos := by
  unfold extend_closure at h
  exact closureLoop_mono _ _ _ _ h

lemma extend_included_subset {omega e : ℕ} {inc exc clos : Bitset}
    (h : extend_closure omega inc e exc = some clos) : inc ⊆ clos :=
  fun a ha => extend_seed_subset h (Finset.mem_insert_of_mem ha)

lemma extend_ext_mem {omega e : ℕ} {inc exc clos : Bitset}
    (h : extend_closure omega inc e exc = some clos) : e ∈ clos :=
  extend_seed_subset h (Finset.mem_insert_self _ _)

/-- The complement of the seed extension is always in a successful
closure: the seed is the first dequeued element and the complement rule
fires for it before anything else. -/
lemma extend_comp_ext_mem {omega e : ℕ} {inc exc clos : Bitset}
    (h : extend_closure omega inc e exc = some clos) : omega ^^^ e ∈ clos := by
  unfold extend_closure at h
  rw [show MAX_SUBSETS = 127 + 1 from rfl, closureLoop_succ_cons] at h
  cases hPo : processOne omega e exc (insert e inc, []) with
  | none => rw [hPo] at h; simp at h
  | some st2 =>
    rw [hPo] at h
    exact closureLoop_mono _ _ _ _ h (processOne_comp_mem hPo)

lemma extend_closed {omega e : ℕ} {inc exc clos : Bitset}
    (homega : omega < MAX_SUBSETS)
    (hb : ∀ s ∈ inc, s < MAX_SUBSETS) (he : e < MAX_SUBSETS)
    (hcomp : ∀ s ∈ inc, omega ^^^ s ∈ inc)
    (hdisj : ∀ x ∈ inc, ∀ y ∈ inc, x &&& y = 0 → x ||| y ∈ inc)
    (h : extend_closure omega inc e exc = some clos) :
    DynkinClosedF omega clos := by
  unfold extend_closure at h
  refine closureLoop_closed homega _ _ _ _ ?_ ?_ ?_ h
  · intro a ha
    simp only [List.mem_singleton] at ha
    subst ha
    exact Finset.mem_insert_self _ _
  · intro a ha
    rcases Finset.mem_insert.mp ha with rfl | ha'
    · exact he
    · exact hb a ha'
  · intro a ha hnq
    have ha' : a ∈ inc := by
      rcases Finset.mem_insert.mp ha with rfl | h'
      · exact absurd (List.mem_singleton.mpr rfl) hnq
      · exact h'
    refine ⟨Finset.mem_insert_of_mem (hcomp a ha'), ?_⟩
    intro b hb2 hbq hd
    have hb' : b ∈ inc := by
      rcases Finset.mem_insert.mp hb2 with rfl | h'
      · exact absurd (List.mem_singleton.mpr rfl) hbq
      · exact h'
    exact Finset.mem_insert_of_mem (hdisj a ha' b hb' hd)

lemma extend_minimal {omega e : ℕ} {inc exc clos : Bitset}
    (h : extend_closure omega inc e exc = some clos) :
    ∀ D : Set ℕ, (∀ a ∈ inc, a ∈ D) → e ∈ D → DynkinClosed omega D →
      ∀ a ∈ clos, a ∈ D := by
  intro D hDinc hDe hD
  unfold extend_closure at h
  refine closureLoop_sound hD _ _ _ _ ?_ ?_ h
  · intro a ha
    rcases Finset.mem_insert.mp ha with rfl | ha'
    · exact hDe
    · exact hDinc a ha'
  · intro a ha
    simp only [List.mem_singleton] at ha
    subst ha
    exact Finset.mem_insert_self _ _

lemma extend_nonexcl {omega e : ℕ} {inc exc clos : Bitset}
    (h : extend_closure omega inc e exc = some clos) :
    ∀ a ∈ clos, a ∈ insert e inc ∨ a ∉ exc := by
  unfold extend_closure at h
  exact closureLoop_nonexcl _ _ _ _ h

lemma extend_bounded {omega e : ℕ} {inc exc clos : Bitset}
    (homega : omega < MAX_SUBSETS)
    (hb : ∀ s ∈ inc, s < MAX_SUBSETS) (he : e < MAX_SUBSETS)
    (h : extend_closure omega inc e exc = some clos) :
    ∀ a ∈ clos, a < MAX_SUBSETS := by
  unfold extend_closure at h
  refine closureLoop_bounded homega _ _ _ _ ?_ ?_ h
  · intro a ha
    rcases Finset.mem_insert.mp ha with rfl | ha'
    · exact he
    · exact hb a ha'
  · intro a ha
    simp only [List.mem_singleton] at ha
    subst ha
    exact Finset.mem_insert_self _ _

/-- C1: under the stated preconditions (a valid already-closed `included`,
`extension` in range, and `omega` a valid bitset index), a successful
`extend_closure` returns the minimal Dynkin-closed superset of
`included ∪ {extension}`: it contains every member of `included` and
`extension`, is closed under complement `omega ^^^ s` and under union of
disjoint members, and is contained in every set with those properties. -/
theorem C1_extend_closure_minimal
    (omega : ℕ) (included : Bitset) (extension : ℕ) (excluded : Bitset)
    (closure : Bitset)
    (homega : omega < MAX_SUBSETS)
    (hempty : 0 ∈ included) (hfull : omega ∈ included)
    (hsub : ∀ s ∈ included, s ≤ omega)
    (hcomp : ∀ s ∈ included, omega ^^^ s ∈ included)
    (hdisj : ∀ x ∈ included, ∀ y ∈ included, x &&& y = 0 → x ||| y ∈ included)
    (hext : extension ≤ omega)
    (h : extend_closure omega included extension excluded = some closure) :
    (included ⊆ closure ∧ extension ∈ closure) ∧
    DynkinClosedF omega closure ∧
    ∀ D : Set ℕ, (∀ a ∈ included, a ∈ D) → extension ∈ D →
      DynkinClosed omega D → ∀ a ∈ closure, a ∈ D := by
  refine ⟨⟨extend_included_subset h, extend_ext_mem h⟩, ?_, extend_minimal h⟩
  exact extend_closed homega
    (fun s hs => lt_of_le_of_lt (hsub s hs) homega)
    (lt_of_le_of_lt hext homega) hcomp hdisj h

/-- Witness for C1 at omega = 3 (n = 2), included = the base family,
extension = 1. -/
theorem C1_witness :
    ((insert 0 {3} : Bitset) ⊆ insert 2 (insert 1 (insert 0 {3})) ∧
      1 ∈ (insert 2 (insert 1 (insert 0 {3})) : Bitset)) ∧
    DynkinClosedF 3 (insert 2 (insert 1 (insert 0 {3}))) :=
  have h := C1_extend_closure_minimal 3 (insert 0 {3}) 1 ∅
    (insert 2 (insert 1 (insert 0 {3})))
    (by decide) (by decide) (by decide) (by decide) (by decide) (by decide)
    (by decide)
    (rfl :
      extend_closure 3 (insert 0 {3}) 1 ∅ =
        some (insert 2 (insert 1 (insert 0 {3}))))
  ⟨h.1, h.2.1⟩

/-- C4 counterexample: the seed extension is never checked against
`excluded`.  With omega = 3, included = {0, 3}, extension = 1 and
excluded = {1}, the extension is already excluded yet `extend_closure`
succeeds (no derived addition hits the excluded set), refuting the claim
that it must fail. -/
theorem C4_counterexample :
    (1 : ℕ) ∈ ({1} : Bitset) ∧
      extend_closure 3 (insert 0 {3}) 1 {1} =
        some (insert 2 (insert 1 (insert 0 {3}))) :=
  ⟨by decide, rfl⟩

/-- C4 amended: only the subsets added during propagation (complements
and disjoint unions) are checked against `excluded`; the seed extension
is added unchecked.  Hence on success every member of the returned
closure other than the members of `included` and the extension itself is
not excluded. -/
theorem C4_propagation_checked
    (omega : ℕ) (included : Bitset) (extension : ℕ) (excluded : Bitset)
    (closure : Bitset)
    (h : extend_closure omega included extension excluded = some closure) :
    ∀ z ∈ closure, z ∉ included → z ≠ extension → z ∉ excluded := by
  intro z hz hzinc hzext
  rcases extend_nonexcl h z hz with h' | h'
  · rcases Finset.mem_insert.mp h' with rfl | h''
    · exact absurd rfl hzext
    · exact absurd h'' hzinc
  · exact h'

/-- Witness for the amended C4 at the element 2 of the closure of
{0, 3} + 1 against excluded = {5}. -/
theorem C4_witness : (2 : ℕ) ∉ ({5} : Bitset) :=
  C4_propagation_checked 3 (insert 0 {3}) 1 {5}
    (insert 2 (insert 1 (insert 0 {3})))
    (rfl :
      extend_closure 3 (insert 0 {3}) 1 {5} =
        some (insert 2 (insert 1 (insert 0 {3}))))
    2 (by decide) (by decide) (by decide)

/-- A fold whose every step maps the state to itself yields the state. -/
lemma foldlM_const {f : Bitset × List ℕ → ℕ → Option (Bitset × List ℕ)}
    {st : Bitset × List ℕ} (hf : ∀ y, f st y = some st) :
    ∀ l : List ℕ, List.foldlM f st l = some st := by
  intro l
  induction l with
  | nil => rfl
  | cons y l ih =>
    rw [List.foldlM_cons, hf y]
    simpa using ih

/-- C6: extending with a subset already present in an already-closed
`included` is a no-op success returning the unchanged set. -/
theorem C6_extend_closure_idempotent
    (omega : ℕ) (included : Bitset) (extension : ℕ) (excluded : Bitset)
    (hempty : 0 ∈ included) (hfull : omega ∈ included)
    (hsub : ∀ s ∈ included, s ≤ omega)
    (hcomp : ∀ s ∈ included, omega ^^^ s ∈ included)
    (hdisj : ∀ x ∈ included, ∀ y ∈ included, x &&& y = 0 → x ||| y ∈ included)
    (hmem : extension ∈ included) :
    extend_closure omega included extension excluded = some included := by
  unfold extend_closure
  rw [Finset.insert_eq_self.mpr hmem,
    show MAX_SUBSETS = 127 + 1 from rfl, closureLoop_succ_cons]
  have hPo : processOne omega extension excluded (included, []) =
      some (included, []) := by
    unfold processOne
    have hc : tryAdd excluded (included, []) (omega ^^^ extension) =
        some (included, []) := by
      unfold tryAdd
      rw [if_pos (show omega ^^^ extension ∈ (included, ([] : List ℕ)).1 from
        hcomp extension hmem)]
    rw [hc]
    simp only [Option.some_bind]
    refine foldlM_const (fun y => ?_) _
    unfold scanStep
    split_ifs with hy
    · unfold tryAdd
      rw [if_pos (show extension ||| y ∈ (included, ([] : List ℕ)).1 from
        hdisj extension hmem y hy.1 hy.2)]
    · rfl
  rw [hPo]
  exact closureLoop_nil _ _ _ _

/-- Witness for C6 at omega = 3, included = {0, 3}, extension = 0. -/
theorem C6_witness :
    extend_closure 3 (insert 0 {3}) 0 ∅ = some (insert 0 {3}) :=
  C6_extend_closure_idempotent 3 (insert 0 {3}) 0 ∅
    (by decide) (by decide) (by decide) (by decide) (by decide) (by decide)

/-! Fuel behaviour of the serial enumerator. -/

lemma innerFuel_succ (omega fuel m : ℕ) (inc exc : Bitset) :
    innerFuel omega (fuel + 1) m inc exc =
      if m < (omega + 1) / 2 then
        if m ∈ inc ∨ m ∈ exc then innerFuel omega fuel (m + 1) inc exc
        else
          (match extend_closure omega inc m exc with
            | some clos => innerFuel omega fuel (m + 1) clos exc
            | none => 0)
          + innerFuel omega fuel (m + 1) inc
              (insert m (insert (omega ^^^ m) exc))
      else 1 := rfl

/-- The enumerator value does not depend on the fuel once the fuel covers
the loop measure `(omega+1)/2 - m`. -/
lemma innerFuel_congr (omega : ℕ) :
    ∀ (f1 f2 m : ℕ) (inc exc : Bitset),
      (omega + 1) / 2 ≤ m + f1 → (omega + 1) / 2 ≤ m + f2 →
      innerFuel omega f1 m inc exc = innerFuel omega f2 m inc exc := by
  intro f1
  induction f1 with
  | zero =>
    intro f2 m inc exc h1 h2
    have hm : ¬ m < (omega + 1) / 2 := by omega
    cases f2 with
    | zero => rfl
    | succ g =>
      rw [innerFuel_succ, if_neg hm]
      rfl
  | succ g1 ih =>
    intro f2 m inc exc h1 h2
    cases f2 with
    | zero =>
      have hm : ¬ m < (omega + 1) / 2 := by omega
      rw [innerFuel_succ, if_neg hm]
      rfl
    | succ g2 =>
      rw [innerFuel_succ, innerFuel_succ]
      by_cases hm : m < (omega + 1) / 2
      · rw [if_pos hm, if_pos hm]
        by_cases hd : m ∈ inc ∨ m ∈ exc
        · rw [if_pos hd, if_pos hd]
          exact ih g2 (m + 1) inc exc (by omega) (by omega)
        · rw [if_neg hd, if_neg hd]
          have hrec2 := ih g2 (m + 1) inc
            (insert m (insert (omega ^^^ m) exc)) (by omega) (by omega)
          cases hE : extend_closure omega inc m exc with
          | none =>
            show (0 : ℕ) + innerFuel omega g1 (m + 1) inc
                (insert m (insert (omega ^^^ m) exc)) =
              0 + innerFuel omega g2 (m + 1) inc
                (insert m (insert (omega ^^^ m) exc))
            rw [hrec2]
          | some clos =>
            show innerFuel omega g1 (m + 1) clos exc +
                innerFuel omega g1 (m + 1) inc
                  (insert m (insert (omega ^^^ m) exc)) =
              innerFuel omega g2 (m + 1) clos exc +
                innerFuel omega g2 (m + 1) inc
                  (insert m (insert (omega ^^^ m) exc))
            rw [ih g2 (m + 1) clos exc (by omega) (by omega), hrec2]
      · rw [if_neg hm, if_neg hm]

lemma innerFuel_ge_one (omega : ℕ) :
    ∀ (fuel m : ℕ) (inc exc : Bitset), 1 ≤ innerFuel omega fuel m inc exc := by
  intro fuel
  induction fuel with
  | zero => intro m inc exc; exact le_refl 1
  | succ g ih =>
    intro m inc exc
    rw [innerFuel_succ]
    by_cases hm : m < (omega + 1) / 2
    · rw [if_pos hm]
      by_cases hd : m ∈ inc ∨ m ∈ exc
      · rw [if_pos hd]; exact ih (m + 1) inc exc
      · rw [if_neg hd]
        exact le_trans (ih (m + 1) inc (insert m (insert (omega ^^^ m) exc)))
          (Nat.le_add_left _ _)
    · rw [if_neg hm]

lemma inner_of_limit_le {omega m : ℕ} {inc exc : Bitset}
    (hm : (omega + 1) / 2 ≤ m) : inner omega m inc exc = 1 := by
  unfold inner
  cases hL : (omega + 1) / 2 with
  | zero => rfl
  | succ g =>
    rw [innerFuel_succ, if_neg (not_lt.mpr hm)]

/-- C8: the enumerator always returns at least 1, and returns exactly 1
as soon as the lower bound reaches the midpoint (the loop body never
executes). -/
theorem C8_inner_count_bounds (omega m : ℕ) (included excluded : Bitset) :
    1 ≤ inner omega m included excluded ∧
      ((omega + 1) / 2 ≤ m → inner omega m included excluded = 1) :=
  ⟨innerFuel_ge_one omega _ m included excluded,
    fun hm => inner_of_limit_le hm⟩

/-- Witness for C8 at omega = 3, lower bound 2 (at the midpoint). -/
theorem C8_witness :
    1 ≤ inner 3 2 (insert 0 {3}) ∅ ∧ inner 3 2 (insert 0 {3}) ∅ = 1 :=
  ⟨(C8_inner_count_bounds 3 2 (insert 0 {3}) ∅).1,
    (C8_inner_count_bounds 3 2 (insert 0 {3}) ∅).2 (by decide)⟩

/-- C10: the enumerator terminates by the measure `(omega+1)/2 - m`: any
fuel at least this measure computes the same total function `inner`. -/
theorem C10_inner_terminates (omega fuel m : ℕ) (included excluded : Bitset)
    (h : (omega + 1) / 2 ≤ m + fuel) :
    innerFuel omega fuel m included excluded = inner omega m included excluded :=
  innerFuel_congr omega fuel ((omega + 1) / 2) m included excluded h (by omega)

/-- Witness for C10 at omega = 3, fuel 5, lower bound 0. -/
theorem C10_witness : innerFuel 3 5 0 (insert 0 {3}) ∅ = inner 3 0 (insert 0 {3}) ∅ :=
  C10_inner_terminates 3 5 0 (insert 0 {3}) ∅ (by decide)

/-- C3 counterexample: the driver does not print "2 4".  There are
exactly two Dynkin systems on a two-element set ({∅, Ω} and the full
power set), and the program correctly computes 2, not the 4 claimed by
the specification. -/
theorem C3_counterexample : outputLine 2 ≠ (2, 4) := by decide

/-- C3 amended: the line printed by the driver for n = 2 is "2 2": the
enumeration yields a count of 2. -/
theorem C3_amended_output_n2 : outputLine 2 = (2, 2) := by decide

/-- C7: the driver prints "0 1" (midpoint limit 0, no enumeration) and
"1 1" (only the base system {∅, Ω}). -/
theorem C7_output_n0_n1 : outputLine 0 = (0, 1) ∧ outputLine 1 = (1, 1) := by
  decide

/-! Insensitivity of the closure and of the enumerator to excluded bits
that are already included: the excluded set is only ever consulted for
elements not yet in the closure, and the closure always contains
`included`.  This is the key to the parallel/serial equivalence, because
the serial recursion passes the pre-commit excluded set while the
parallel driver passes the post-commit one, the difference being exactly
`{m, omega ^^^ m}` which both lie in the successful closure. -/

lemma tryAdd_union_congr {exc s : Bitset} {st : Bitset × List ℕ} {z : ℕ}
    (hs : ∀ w ∈ s, w ∈ st.1) :
    tryAdd (exc ∪ s) st z = tryAdd exc st z := by
  unfold tryAdd
  by_cases h1 : z ∈ st.1
  · rw [if_pos h1, if_pos h1]
  · rw [if_neg h1, if_neg h1]
    by_cases h2 : z ∈ exc
    · rw [if_pos (Finset.mem_union_left s h2), if_pos h2]
    · rw [if_neg (fun hu =>
        (Finset.mem_union.mp hu).elim h2 (fun hz => h1 (hs z hz))), if_neg h2]

lemma scanFold_union_congr {x : ℕ} {exc s : Bitset} :
    ∀ (l : List ℕ) (st : Bitset × List ℕ), (∀ w ∈ s, w ∈ st.1) →
      List.foldlM (scanStep x (exc ∪ s)) st l =
        List.foldlM (scanStep x exc) st l := by
  intro l
  induction l with
  | nil => intro st hs; rfl
  | cons y l ih =>
    intro st hs
    rw [List.foldlM_cons, List.foldlM_cons]
    have hstep : scanStep x (exc ∪ s) st y = scanStep x exc st y := by
      unfold scanStep
      split_ifs with h
      · exact tryAdd_union_congr hs
      · rfl
    rw [hstep]
    cases hy : scanStep x exc st y with
    | none => rfl
    | some st1 =>
      simp only [Option.bind_eq_bind, Option.some_bind]
      exact ih st1 (fun w hw => (scanStep_REvol hy).1 (hs w hw))

lemma processOne_union_congr {omega x : ℕ} {exc s : Bitset}
    {st : Bitset × List ℕ} (hs : ∀ w ∈ s, w ∈ st.1) :
    processOne omega x (exc ∪ s) st = processOne omega x exc st := by
  unfold processOne
  rw [tryAdd_union_congr hs]
  cases hc : tryAdd exc st (omega ^^^ x) with
  | none => rw [Option.none_bind, Option.none_bind]
  | some st1 =>
    rw [Option.some_bind, Option.some_bind]
    exact scanFold_union_congr _ st1 (fun w hw => (tryAdd_REvol hc).1 (hs w hw))

lemma closureLoop_union_congr {omega : ℕ} {exc s : Bitset} :
    ∀ (fuel : ℕ) (clos : Bitset) (q : List ℕ), (∀ w ∈ s, w ∈ clos) →
      closureLoop omega (exc ∪ s) fuel clos q =
        closureLoop omega exc fuel clos q := by
  intro fuel
  induction fuel with
  | zero =>
    intro clos q hs
    cases q with
    | nil => rw [closureLoop_nil, closureLoop_nil]
    | cons x rest => rfl
  | succ fuel ih =>
    intro clos q hs
    cases q with
    | nil => rw [closureLoop_nil, closureLoop_nil]
    | cons x rest =>
      rw [closureLoop_succ_cons, closureLoop_succ_cons,
        processOne_union_congr hs]
      cases hPo : processOne omega x exc (clos, rest) with
      | none => rfl
      | some st2 =>
        exact ih st2.1 st2.2 (fun w hw => (processOne_REvol hPo).1 (hs w hw))

lemma extend_union_congr {omega e : ℕ} {inc exc s : Bitset}
    (hs : ∀ w ∈ s, w ∈ inc) :
    extend_closure omega inc e (exc ∪ s) = extend_closure omega inc e exc := by
  unfold extend_closure
  exact closureLoop_union_congr _ _ _
    (fun w hw => Finset.mem_insert_of_mem (hs w hw))

/-- The enumerator is insensitive to excluding subsets that are already
included. -/
lemma innerFuel_union_irrel (omega : ℕ) :
    ∀ (fuel m : ℕ) (inc exc s : Bitset), (∀ w ∈ s, w ∈ inc) →
      innerFuel omega fuel m inc (exc ∪ s) = innerFuel omega fuel m inc exc := by
  intro fuel
  induction fuel with
  | zero => intro m inc exc s hs; rfl
  | succ g ih =>
    intro m inc exc s hs
    rw [innerFuel_succ, innerFuel_succ]
    by_cases hm : m < (omega + 1) / 2
    · rw [if_pos hm, if_pos hm]
      have hguard : (m ∈ inc ∨ m ∈ exc ∪ s) ↔ (m ∈ inc ∨ m ∈ exc) := by
        constructor
        · rintro (h | h)
          · exact Or.inl h
          · rcases Finset.mem_union.mp h with h' | h'
            · exact Or.inr h'
            · exact Or.inl (hs m h')
        · rintro (h | h)
          · exact Or.inl h
          · exact Or.inr (Finset.mem_union_left s h)
      by_cases hd : m ∈ inc ∨ m ∈ exc
      · rw [if_pos (hguard.mpr hd), if_pos hd]
        exact ih (m + 1) inc exc s hs
      · rw [if_neg (fun h => hd (hguard.mp h)), if_neg hd]
        rw [extend_union_congr hs]
        congr 1
        · cases hE : extend_closure omega inc m exc with
          | none => rfl
          | some clos =>
            exact ih (m + 1) clos exc s
              (fun w hw => extend_included_subset hE (hs w hw))
        · have hins : insert m (insert (omega ^^^ m) (exc ∪ s)) =
              insert m (insert (omega ^^^ m) exc) ∪ s := by
            rw [Finset.insert_union, Finset.insert_union]
          rw [hins]
          exact ih (m + 1) inc (insert m (insert (omega ^^^ m) exc)) s hs
    · rw [if_neg hm, if_neg hm]

lemma inner_union_irrel {omega m : ℕ} {inc exc s : Bitset}
    (hs : ∀ w ∈ s, w ∈ inc) :
    inner omega m inc (exc ∪ s) = inner omega m inc exc :=
  innerFuel_union_irrel omega _ m inc exc s hs

/-! Arithmetic facts about omega = 2^n - 1 and the midpoint limit. -/

lemma omegaOf_pos {n : ℕ} (hn : 1 ≤ n) : omegaOf n = 2 ^ n - 1 := by
  unfold omegaOf
  rw [if_pos (show 0 < n by omega)]

lemma limit_pow {n : ℕ} (hn : 1 ≤ n) :
    ((2 : ℕ) ^ n - 1 + 1) / 2 = 2 ^ (n - 1) := by
  rw [Nat.sub_add_cancel (Nat.two_pow_pos n)]
  have h2 : (2 : ℕ) ^ n = 2 ^ (n - 1) * 2 := by
    rw [← pow_succ]
    congr 1
    omega
  rw [h2, Nat.mul_div_cancel _ (by norm_num)]

/-- The complement of any index strictly below the midpoint lands at or
above the midpoint (its top bit is set). -/
lemma comp_ge_limit {n j : ℕ} (hn : 1 ≤ n) (hj : j < 2 ^ (n - 1)) :
    2 ^ (n - 1) ≤ (2 ^ n - 1) ^^^ j :=
  Nat.testBit_implies_ge (by
    rw [Nat.testBit_xor, Nat.testBit_two_pow_sub_one, Nat.testBit_lt_two_pow hj]
    have h : n - 1 < n := by omega
    simp [h])

lemma mem_rootExcluded {omega : ℕ} :
    ∀ k z : ℕ, z ∈ rootExcluded omega k ↔
      ∃ j, 1 ≤ j ∧ j ≤ k ∧ (z = j ∨ z = omega ^^^ j) := by
  intro k
  induction k with
  | zero =>
    intro z
    constructor
    · intro h
      exact absurd h (Finset.not_mem_empty z)
    · rintro ⟨j, h1, h2, _⟩
      omega
  | succ k ih =>
    intro z
    rw [rootExcluded]
    simp only [Finset.mem_insert, ih]
    constructor
    · rintro (rfl | rfl | ⟨j, h1, h2, hj⟩)
      · exact ⟨k + 1, by omega, by omega, Or.inl rfl⟩
      · exact ⟨k + 1, by omega, by omega, Or.inr rfl⟩
      · exact ⟨j, h1, by omega, hj⟩
    · rintro ⟨j, h1, h2, hj⟩
      by_cases hjk : j = k + 1
      · subst hjk
        rcases hj with rfl | rfl
        · exact Or.inl rfl
        · exact Or.inr (Or.inl rfl)
      · exact Or.inr (Or.inr ⟨j, h1, by omega, hj⟩)

/-- At the top level the skip guard never fires: an index in [1, limit)
is neither in the base family nor in the accumulated root excluded set
(all excluded complements lie at or above the midpoint). -/
lemma guard_false {n m : ℕ} (hn : 1 ≤ n) (h1 : 1 ≤ m)
    (hm : m < 2 ^ (n - 1)) :
    m ∉ baseIncluded (2 ^ n - 1) ∧
      m ∉ rootExcluded (2 ^ n - 1) (m - 1) := by
  have hLle : 2 ^ (n - 1) ≤ 2 ^ n - 1 := by
    have h2 : (2 : ℕ) ^ n = 2 ^ (n - 1) * 2 := by
      rw [← pow_succ]
      congr 1
      omega
    have h3 := Nat.two_pow_pos (n - 1)
    omega
  constructor
  · intro h
    unfold baseIncluded at h
    rcases Finset.mem_insert.mp h with h' | h'
    · omega
    · rw [Finset.mem_singleton] at h'
      omega
  · intro h
    rw [mem_rootExcluded] at h
    obtain ⟨j, hj1, hj2, hj⟩ := h
    rcases hj with rfl | rfl
    · omega
    · have hcomp := comp_ge_limit hn (show j < 2 ^ (n - 1) by omega)
      omega

/-- One unfolding of the enumerator below the midpoint. -/
lemma inner_step {omega m : ℕ} (inc exc : Bitset)
    (hm : m < (omega + 1) / 2) :
    inner omega m inc exc =
      if m ∈ inc ∨ m ∈ exc then inner omega (m + 1) inc exc
      else
        (match extend_closure omega inc m exc with
          | some clos => inner omega (m + 1) clos exc
          | none => 0)
        + inner omega (m + 1) inc (insert m (insert (omega ^^^ m) exc)) := by
  unfold inner
  obtain ⟨g, hg⟩ : ∃ g, (omega + 1) / 2 = g + 1 := ⟨(omega + 1) / 2 - 1, by omega⟩
  rw [hg, innerFuel_succ, if_pos hm]
  by_cases hd : m ∈ inc ∨ m ∈ exc
  · rw [if_pos hd, if_pos hd]
    exact innerFuel_congr omega g (g + 1) (m + 1) inc exc (by omega) (by omega)
  · rw [if_neg hd, if_neg hd]
    congr 1
    · cases hE : extend_closure omega inc m exc with
      | none => rfl
      | some clos =>
        exact innerFuel_congr omega g (g + 1) (m + 1) clos exc
          (by omega) (by omega)
    · exact innerFuel_congr omega g (g + 1) (m + 1) inc
        (insert m (insert (omega ^^^ m) exc)) (by omega) (by omega)

/-- The serial enumerator, started at iteration m of the top level with
the sequentially accumulated excluded prefix, counts 1 plus the worker
contributions of iterations m .. limit-1. -/
lemma telescope {n : ℕ} (hn : 1 ≤ n) :
    ∀ d m : ℕ, 1 ≤ m → m + d = 2 ^ (n - 1) →
      inner (2 ^ n - 1) m (baseIncluded (2 ^ n - 1))
          (rootExcluded (2 ^ n - 1) (m - 1)) =
        1 + ∑ j ∈ Finset.Ico m (2 ^ (n - 1)), workerTerm (2 ^ n - 1) j := by
  intro d
  induction d with
  | zero =>
    intro m h1 hm
    have hm' : m = 2 ^ (n - 1) := by omega
    subst hm'
    rw [inner_of_limit_le (le_of_eq (limit_pow hn)), Finset.Ico_self,
      Finset.sum_empty]
    rfl
  | succ d ih =>
    intro m h1 hm
    have hmlt : m < 2 ^ (n - 1) := by omega
    have hguard := guard_false hn h1 hmlt
    have hgf : ¬(m ∈ baseIncluded (2 ^ n - 1) ∨
        m ∈ rootExcluded (2 ^ n - 1) (m - 1)) :=
      fun h => h.elim hguard.1 hguard.2
    rw [inner_step _ _ (by rw [limit_pow hn]; exact hmlt), if_neg hgf]
    have hroot : insert m (insert ((2 ^ n - 1) ^^^ m)
        (rootExcluded (2 ^ n - 1) (m - 1))) = rootExcluded (2 ^ n - 1) m := by
      obtain ⟨k, rfl⟩ : ∃ k, m = k + 1 := ⟨m - 1, by omega⟩
      rw [Nat.add_sub_cancel]
      rfl
    have ih' := ih (m + 1) (by omega) (by omega)
    rw [Nat.add_sub_cancel] at ih'
    have hsum : ∑ j ∈ Finset.Ico m (2 ^ (n - 1)), workerTerm (2 ^ n - 1) j =
        workerTerm (2 ^ n - 1) m +
          ∑ j ∈ Finset.Ico (m + 1) (2 ^ (n - 1)), workerTerm (2 ^ n - 1) j :=
      Finset.sum_eq_sum_Ico_succ_bot hmlt _
    cases hE : extend_closure (2 ^ n - 1) (baseIncluded (2 ^ n - 1)) m
        (rootExcluded (2 ^ n - 1) (m - 1)) with
    | none =>
      have hw : workerTerm (2 ^ n - 1) m = 0 := by
        unfold workerTerm
        rw [if_neg hgf, hE]
      show 0 + inner (2 ^ n - 1) (m + 1) (baseIncluded (2 ^ n - 1))
          (insert m (insert ((2 ^ n - 1) ^^^ m)
            (rootExcluded (2 ^ n - 1) (m - 1)))) =
        1 + ∑ j ∈ Finset.Ico m (2 ^ (n - 1)), workerTerm (2 ^ n - 1) j
      rw [hroot, ih', hsum, hw]
      ring
    | some clos =>
      have hw : workerTerm (2 ^ n - 1) m =
          inner (2 ^ n - 1) (m + 1) clos (rootExcluded (2 ^ n - 1) (m - 1)) := by
        unfold workerTerm
        rw [if_neg hgf, hE]
        show inner (2 ^ n - 1) (m + 1) clos
            (insert m (insert ((2 ^ n - 1) ^^^ m)
              (rootExcluded (2 ^ n - 1) (m - 1)))) = _
        have hun : insert m (insert ((2 ^ n - 1) ^^^ m)
            (rootExcluded (2 ^ n - 1) (m - 1))) =
            rootExcluded (2 ^ n - 1) (m - 1) ∪
              insert m {(2 ^ n - 1) ^^^ m} := by
          ext a
          simp only [Finset.mem_insert, Finset.mem_union, Finset.mem_singleton]
          tauto
        rw [hun]
        refine inner_union_irrel ?_
        intro w hwm
        rcases Finset.mem_insert.mp hwm with rfl | hw'
        · exact extend_ext_mem hE
        · rw [Finset.mem_singleton] at hw'
          subst hw'
          exact extend_comp_ext_mem hE
      show inner (2 ^ n - 1) (m + 1) clos (rootExcluded (2 ^ n - 1) (m - 1)) +
          inner (2 ^ n - 1) (m + 1) (baseIncluded (2 ^ n - 1))
            (insert m (insert ((2 ^ n - 1) ^^^ m)
              (rootExcluded (2 ^ n - 1) (m - 1)))) =
        1 + ∑ j ∈ Finset.Ico m (2 ^ (n - 1)), workerTerm (2 ^ n - 1) j
      rw [hroot, ih', hsum, ← hw]
      ring

/-- C2: for every n in the compiled range, the driver total of the
parallel top-level split (sum of the worker subtree counts against the
precomputed root excluded prefixes, plus 1) equals the count of the
single serial call `inner(omega, 1, {∅, Ω}, ∅)`. -/
theorem C2_parallel_serial_equiv (n : ℕ) (h1 : 1 ≤ n) (h7 : n ≤ MAX_N) :
    driverCount n = inner (omegaOf n) 1 (baseIncluded (omegaOf n)) ∅ := by
  have ho : omegaOf n = 2 ^ n - 1 := omegaOf_pos h1
  unfold driverCount
  rw [ho, limit_pow h1, if_neg (Nat.two_pow_pos (n - 1)).ne']
  have hL := Nat.two_pow_pos (n - 1)
  have htel := telescope h1 (2 ^ (n - 1) - 1) 1 (le_refl 1) (by omega)
  rw [show (1 : ℕ) - 1 = 0 from rfl] at htel
  rw [show rootExcluded (2 ^ n - 1) 0 = ∅ from rfl] at htel
  rw [htel]
  ring

/-- Witness for C2 at n = 2. -/
theorem C2_witness :
    driverCount 2 = inner (omegaOf 2) 1 (baseIncluded (omegaOf 2)) ∅ :=
  C2_parallel_serial_equiv 2 (by decide) (by decide)

/-! Reachable search states.  A state is a pair (included, excluded); the
enumeration starts from the base state and moves by the two transitions
of the enumerator body: a successful closure extension with an undecided
index below the midpoint, or the exclude-commit of such an index and its
complement. -/

lemma mem_baseIncluded {omega a : ℕ} :
    a ∈ baseIncluded omega ↔ a = 0 ∨ a = omega := by
  unfold baseIncluded
  simp

lemma baseIncluded_closed (omega : ℕ) :
    DynkinClosedF omega (baseIncluded omega) := by
  constructor
  · intro s hs
    rcases mem_baseIncluded.mp hs with rfl | rfl
    · rw [Nat.xor_zero]
      exact mem_baseIncluded.mpr (Or.inr rfl)
    · rw [Nat.xor_self]
      exact mem_baseIncluded.mpr (Or.inl rfl)
  · intro x hx y hy hd
    rcases mem_baseIncluded.mp hx with rfl | rfl
    · rw [Nat.zero_or]
      exact hy
    · rcases mem_baseIncluded.mp hy with rfl | rfl
      · rw [Nat.or_zero]
        exact hx
      · rw [Nat.and_self] at hd
        rw [hd, Nat.or_self]
        exact mem_baseIncluded.mpr (Or.inl rfl)

/-- Strengthened reachable-state invariant, including the bitset bound
needed to push Dynkin closedness through an extension step. -/
lemma Reach_good {omega : ℕ} (homega : omega < MAX_SUBSETS) :
    ∀ {inc exc : Bitset}, Reach omega inc exc →
      (∀ s, ¬(s ∈ inc ∧ s ∈ exc)) ∧ (0 ∈ inc ∧ omega ∈ inc) ∧
        DynkinClosedF omega inc ∧ (∀ s ∈ inc, s < MAX_SUBSETS) := by
  intro inc exc h
  induction h with
  | base =>
    refine ⟨?_, ⟨?_, ?_⟩, baseIncluded_closed omega, ?_⟩
    · rintro s ⟨_, hse⟩
      exact Finset.not_mem_empty s hse
    · exact mem_baseIncluded.mpr (Or.inl rfl)
    · exact mem_baseIncluded.mpr (Or.inr rfl)
    · intro s hs
      rcases mem_baseIncluded.mp hs with rfl | rfl
      · have hMS : 0 < MAX_SUBSETS := by decide
        exact hMS
      · exact homega
  | extend hre hm hin hex hE ih =>
    obtain ⟨ihnb, ⟨ih0, ihw⟩, ihcl, ihb⟩ := ih
    rename_i m clos
    have hm128 : m < MAX_SUBSETS := by
      have hMS : MAX_SUBSETS = 128 := rfl
      omega
    refine ⟨?_, ⟨?_, ?_⟩, ?_, ?_⟩
    · rintro s ⟨hsc, hse⟩
      rcases extend_nonexcl hE s hsc with h' | h'
      · rcases Finset.mem_insert.mp h' with rfl | h''
        · exact hex hse
        · exact ihnb s ⟨h'', hse⟩
      · exact h' hse
    · exact extend_included_subset hE ih0
    · exact extend_included_subset hE ihw
    · exact extend_closed homega ihb hm128 ihcl.1 ihcl.2 hE
    · exact extend_bounded homega ihb hm128 hE
  | exclude hre hm hin hex ih =>
    obtain ⟨ihnb, ⟨ih0, ihw⟩, ihcl, ihb⟩ := ih
    refine ⟨?_, ⟨ih0, ihw⟩, ihcl, ihb⟩
    rintro s ⟨hsi, hse⟩
    rcases Finset.mem_insert.mp hse with rfl | hse'
    · exact hin hsi
    · rcases Finset.mem_insert.mp hse' with rfl | hse''
      · have h2 := ihcl.1 _ hsi
        rw [← Nat.xor_assoc, Nat.xor_self, Nat.zero_xor] at h2
        exact hin h2
      · exact ihnb s ⟨hsi, hse''⟩

/-- C5: every reachable search state satisfies the claimed invariants:
no subset is both included and excluded, the included family contains
∅ and Ω, and it is closed under complement and disjoint union. -/
theorem C5_reachable_invariants (omega : ℕ) (inc exc : Bitset)
    (homega : omega < MAX_SUBSETS) (h : Reach omega inc exc) :
    (∀ s, ¬(s ∈ inc ∧ s ∈ exc)) ∧ (0 ∈ inc ∧ omega ∈ inc) ∧
      DynkinClosedF omega inc :=
  ⟨(Reach_good homega h).1, (Reach_good homega h).2.1,
    (Reach_good homega h).2.2.1⟩

/-- Witness for C5 at the base state for omega = 3. -/
theorem C5_witness :
    (∀ s, ¬(s ∈ baseIncluded 3 ∧ s ∈ (∅ : Bitset))) ∧
      (0 ∈ baseIncluded 3 ∧ 3 ∈ baseIncluded 3) ∧
      DynkinClosedF 3 (baseIncluded 3) :=
  C5_reachable_invariants 3 (baseIncluded 3) ∅ (by decide) Reach.base

/-! Queue and bitset safety of the closure loop (C9). -/

lemma tryAdd_queueInv {inc excl : Bitset} {e z : ℕ} {st st' : Bitset × List ℕ}
    (hz : z < MAX_SUBSETS) (h : tryAdd excl st z = some st')
    (hP : QueueInv inc e st) : QueueInv inc e st' := by
  rcases tryAdd_cases h with ⟨_, rfl⟩ | ⟨hz1, _, rfl⟩
  · exact hP
  · obtain ⟨hnd, hqc, hb, hic, hec⟩ := hP
    refine ⟨?_, ?_, ?_, ?_, ?_⟩
    · exact hnd.append (List.nodup_singleton z)
        (List.disjoint_singleton.mpr (fun hzq => hz1 (hqc z hzq)))
    · intro a ha
      rcases List.mem_append.mp ha with ha' | ha'
      · exact Finset.mem_insert_of_mem (hqc a ha')
      · simp only [List.mem_singleton] at ha'
        subst ha'
        exact Finset.mem_insert_self _ _
    · intro a ha
      rcases Finset.mem_insert.mp ha with rfl | ha'
      · exact hz
      · exact hb a ha'
    · exact hic.trans (Finset.subset_insert _ _)
    · exact Finset.mem_insert_of_mem hec

/-- C9: under the stated preconditions, the queue safety properties hold
along every step of the closure loop: they hold at the seeded entry
state, they are preserved by the processing of any dequeued element, and
at any state satisfying them the number of indices ever enqueued
(`insert e (st.1 \ inc)`, the C write position `qe`) is at most
MAX_SUBSETS while every closure member and queue entry is a valid index
below MAX_SUBSETS and no index sits twice on the queue. -/
theorem C9_queue_safety (omega e : ℕ) (inc exc : Bitset)
    (homega : omega < MAX_SUBSETS) (he : e ≤ omega)
    (hinc : ∀ a ∈ inc, a ≤ omega) (hexc : ∀ a ∈ exc, a ≤ omega) :
    QueueInv inc e (insert e inc, [e]) ∧
    (∀ (clos : Bitset) (x : ℕ) (rest : List ℕ) (st2 : Bitset × List ℕ),
      QueueInv inc e (clos, x :: rest) →
      processOne omega x exc (clos, rest) = some st2 →
      QueueInv inc e st2) ∧
    (∀ st : Bitset × List ℕ, QueueInv inc e st →
      (insert e (st.1 \ inc)).card ≤ MAX_SUBSETS ∧
        (∀ a ∈ st.1, a < MAX_SUBSETS) ∧
        (∀ a ∈ st.2, a < MAX_SUBSETS) ∧ st.2.Nodup) := by
  refine ⟨?_, ?_, ?_⟩
  · refine ⟨List.nodup_singleton e, ?_, ?_, Finset.subset_insert _ _,
      Finset.mem_insert_self _ _⟩
    · intro a ha
      simp only [List.mem_singleton] at ha
      subst ha
      exact Finset.mem_insert_self _ _
    · intro a ha
      rcases Finset.mem_insert.mp ha with rfl | ha'
      · exact lt_of_le_of_lt he homega
      · exact lt_of_le_of_lt (hinc a ha') homega
  · intro clos x rest st2 hP hPo
    have hx : x < MAX_SUBSETS :=
      hP.2.2.1 x (hP.2.1 x (List.mem_cons_self x rest))
    have hPrest : QueueInv inc e (clos, rest) :=
      ⟨(List.nodup_cons.mp hP.1).2,
        fun a ha => hP.2.1 a (List.mem_cons_of_mem x ha),
        hP.2.2.1, hP.2.2.2.1, hP.2.2.2.2⟩
    unfold processOne at hPo
    cases hc : tryAdd exc (clos, rest) (omega ^^^ x) with
    | none => rw [hc] at hPo; simp at hPo
    | some st1 =>
      rw [hc] at hPo
      simp only [Option.some_bind] at hPo
      have h1 : QueueInv inc e st1 :=
        tryAdd_queueInv (xor_lt_MS homega hx) hc hPrest
      refine @foldlM_ind _ (QueueInv inc e) (fun st y st' hs hQ => ?_)
        _ st1 st2 hPo h1
      rcases scanStep_cases hs with ⟨⟨hyin, _⟩, hadd⟩ | ⟨_, rfl⟩
      · exact tryAdd_queueInv (or_lt_MS hx (hQ.2.2.1 y hyin)) hadd hQ
      · exact hQ
  · intro st hP
    obtain ⟨hnd, hqc, hb, hic, hec⟩ := hP
    refine ⟨?_, hb, fun a ha => hb a (hqc a ha), hnd⟩
    have hsub : insert e (st.1 \ inc) ⊆ st.1 :=
      Finset.insert_subset_iff.mpr ⟨hec, Finset.sdiff_subset⟩
    have h2 : st.1 ⊆ Finset.range MAX_SUBSETS :=
      fun a ha => Finset.mem_range.mpr (hb a ha)
    calc (insert e (st.1 \ inc)).card
        ≤ st.1.card := Finset.card_le_card hsub
      _ ≤ (Finset.range MAX_SUBSETS).card := Finset.card_le_card h2
      _ = MAX_SUBSETS := Finset.card_range _

/-- Witness for C9 at omega = 3, extension 1, included = {0, 3}. -/
theorem C9_witness : QueueInv (insert 0 {3}) 1 (insert 1 (insert 0 {3}), [1]) :=
  (C9_queue_safety 3 1 (insert 0 {3}) ∅ (by decide) (by decide) (by decide)
    (by decide)).1

end DynkinC
